import Mathlib

/-!
Shallow embedding of the IncDev trail/score engine (`incdev.py` of the
zylab analysis tool) and verification of its specification.

Modelling conventions, fixed once for the whole development:

* A submission's code text is modelled as its list of lines, i.e. the result
  of Python's `code.splitlines()`; lines contain no newline characters.
* Python floats (`score`, diff ratios) are modelled as exact rationals; the
  decimal literals `.1`, `.04`, `.5`, `.7` become `1/10`, `4/100`, `1/2`,
  `7/10`.  `round` is modelled as exact round-half-to-even, which is what
  Python's `round` computes on exactly representable values.
* Timestamps (`pandas.Timestamp`) are modelled as integers (seconds), so
  `pd.Timedelta(curr - prev).total_seconds()` becomes integer subtraction.
* The `difflib.Differ`-based changed-line count inside `get_diff`
  (incdev.py:393-398) is standard-library code external to the repository;
  it is kept abstract as a parameter `d : List String → List String → ℕ`
  giving the number of `+ `/`- ` lines that are not blank.  Everything the
  engine does with it (the division, the guards, the thresholds) is modelled
  concretely.
* Python list indexing `xs[i]` raises `IndexError` when out of bounds; every
  access that can actually be out of bounds on some input is modelled with
  `List.get?` inside `Option` (a `none` result models the raised exception).
  Accesses whose indices are in bounds for every reachable state are modelled
  with total `List.getD`; each such spot is justified by a comment.
-/

/-- A line is blank exactly when every character is whitespace: both Python's
`s.strip()` and `s.rstrip()` return the empty string precisely for such
lines, so one predicate models both blank-line tests of the source. -/
def isBlank (s : String) : Bool := s.toList.all Char.isWhitespace

/-- Blank-line removal applied by every trail generator before measuring code:
`[s for s in run.code.splitlines() if s.strip()]` (e.g. incdev.py:82). -/
def stripBlanks (code : List String) : List String :=
  code.filter (fun s => !(isBlank s))

/-- One submission snapshot (`submission.py`), restricted to the fields the
engine reads: `type` is 1 for a SUBMIT run and 0 for a DEVELOP run,
`code` is the submission text as its list of lines, `sub_time` is the
timestamp in seconds, and `score` is the grading score (only read for
SUBMIT runs). -/
structure Run where
  type : ℕ
  code : List String
  sub_time : ℤ
  score : ℤ

/-- The stripped code of every run, in order; `line_count` of a run is the
length of its entry (joining non-blank lines and splitting again is the
identity on the line list, and the empty join splits to the empty list). -/
def strippedCodes (runs : List Run) : List (List String) :=
  runs.map (fun r => stripBlanks r.code)

/-- `adjust_score` (incdev.py:532-548): clamp the score to at most 1. -/
def adjust_score (score : ℚ) : ℚ := if 1 < score then 1 else score

/-- Round half to even on exact rationals: Python's builtin `round`. -/
def pyRound (q : ℚ) : ℤ :=
  if q - ⌊q⌋ < 1/2 then ⌊q⌋
  else if 1/2 < q - ⌊q⌋ then ⌊q⌋ + 1
  else if 2 ∣ ⌊q⌋ then ⌊q⌋ else ⌊q⌋ + 1

/-- Python's `round(x, 2)`: round half to even at two decimal places. -/
def round2 (q : ℚ) : ℚ := (pyRound (q * 100) : ℚ) / 100

/-- One iteration of the scoring loop of `assign_inc_dev_score`
(incdev.py:85-94): if more than 20 non-blank lines were added, subtract
`.04` per line over 20, otherwise add `.1`; afterwards clamp to at most 1
with `adjust_score` (applied after both branches, incdev.py:94). -/
def scoreStep (prev_lines line_count : ℕ) (score : ℚ) : ℚ :=
  if 20 < (line_count : ℤ) - (prev_lines : ℤ) then
    adjust_score (score - 4/100 * (((line_count : ℤ) - (prev_lines : ℤ) - 20 : ℤ) : ℚ))
  else
    adjust_score (score + 1/10)

/-- The scoring loop of `assign_inc_dev_score` (incdev.py:80-95): fold
`scoreStep` over the runs, tracking the previous run's non-blank line
count (initially 0). -/
def scoreLoop : List Run → ℚ → ℕ → ℚ
  | [], score, _ => score
  | r :: rs, score, prev_lines =>
    scoreLoop rs (scoreStep prev_lines (stripBlanks r.code).length score)
      (stripBlanks r.code).length

/-- `assign_inc_dev_score` (incdev.py:63-102): run the scoring loop from
score 1, clamp the floor to 0 once after the loop (incdev.py:98-99), and
round to two decimal places (incdev.py:101). -/
def assign_inc_dev_score (runs : List Run) : ℚ :=
  round2 (if scoreLoop runs 1 0 < 0 then 0 else scoreLoop runs 1 0)

theorem adjust_score_le_one (q : ℚ) : adjust_score q ≤ 1 := by
  unfold adjust_score; split <;> linarith

theorem scoreStep_le_one (p lc : ℕ) (s : ℚ) : scoreStep p lc s ≤ 1 := by
  unfold scoreStep; split <;> exact adjust_score_le_one _

theorem scoreLoop_le_one (rs : List Run) (s : ℚ) (p : ℕ) (h : rs ≠ []) :
    scoreLoop rs s p ≤ 1 := by
  induction rs generalizing s p with
  | nil => exact absurd rfl h
  | cons r rs ih =>
    rw [scoreLoop]
    cases rs with
    | nil => exact scoreStep_le_one _ _ _
    | cons r2 rs2 => exact ih _ _ (by simp)

theorem pyRound_bounds {q : ℚ} (h0 : 0 ≤ q) (h1 : q ≤ 100) :
    0 ≤ pyRound q ∧ pyRound q ≤ 100 := by
  have hf0 : (0 : ℤ) ≤ ⌊q⌋ := Int.floor_nonneg.mpr h0
  have hfq : (⌊q⌋ : ℚ) ≤ q := Int.floor_le q
  have hf100 : ⌊q⌋ ≤ 100 := by
    have := Int.floor_le_floor (α := ℚ) h1
    simpa using this
  unfold pyRound
  split
  · exact ⟨hf0, hf100⟩
  · rename_i hlt
    have h2 : (⌊q⌋ : ℚ) + 1/2 ≤ q := by linarith [not_lt.mp hlt]
    have h99 : ⌊q⌋ ≤ 99 := by
      by_contra hc
      have h100 : ⌊q⌋ = 100 := le_antisymm hf100 (by omega)
      rw [h100] at h2
      push_cast at h2
      linarith
    split
    · omega
    · split <;> omega

theorem round2_bounds {q : ℚ} (h0 : 0 ≤ q) (h1 : q ≤ 1) :
    0 ≤ round2 q ∧ round2 q ≤ 1 := by
  have hb := pyRound_bounds (q := q * 100) (by linarith) (by linarith)
  unfold round2
  constructor
  · apply div_nonneg _ (by norm_num)
    exact_mod_cast hb.1
  · rw [div_le_one (by norm_num)]
    exact_mod_cast hb.2

/-- C1: for every run sequence of length at least 1, the IncDev score
returned by `assign_inc_dev_score` — accumulator started at 1, `+.1` or
`-.04 * (delta - 20)` per step, ceiling clamp after every step, floor clamp
once at the end, rounded to two decimals — lies in the interval [0, 1]. -/
theorem incdev_score_in_unit_interval (runs : List Run) (h : 1 ≤ runs.length) :
    0 ≤ assign_inc_dev_score runs ∧ assign_inc_dev_score runs ≤ 1 := by
  have hne : runs ≠ [] := by
    cases runs with
    | nil => simp at h
    | cons r rs => simp
  have hle := scoreLoop_le_one runs 1 0 hne
  unfold assign_inc_dev_score
  split
  · exact round2_bounds le_rfl (by norm_num)
  · rename_i hnlt
    exact round2_bounds (not_lt.mp hnlt) hle

/-- Witness for C1 at a concrete one-run input. -/
theorem incdev_score_in_unit_interval_witness :
    1 ≤ ([⟨1, ["int x;", "", "x = 1;"], 0, 10⟩] : List Run).length ∧
      (0 ≤ assign_inc_dev_score [⟨1, ["int x;", "", "x = 1;"], 0, 10⟩] ∧
        assign_inc_dev_score [⟨1, ["int x;", "", "x = 1;"], 0, 10⟩] ≤ 1) :=
  ⟨by decide, incdev_score_in_unit_interval _ (by decide)⟩

/-- The denominator computed inside `get_diff` (incdev.py:400-401): the
number of lines of `sub1` that are non-empty after stripping trailing
whitespace, i.e. its non-blank lines. -/
def diffDenom (sub1 : List String) : ℕ :=
  (sub1.filter (fun s => !(isBlank s))).length

/-- `get_diff` (incdev.py:379-403) with the `difflib.Differ` changed-line
count abstracted as `d`: the ratio of changed non-blank lines to the
non-blank line count of `sub1`.  The division is exactly the Python
expression `lineChanges / lineCount` (incdev.py:402); in this embedding a
zero denominator yields 0 instead of raising `ZeroDivisionError`, and the
safety claim about the call sites is stated separately via
`getDiffCallArgs`. -/
def getDiff (d : List String → List String → ℕ) (sub1 sub2 : List String) : ℚ :=
  (d sub1 sub2 : ℚ) / (diffDenom sub1 : ℚ)

/-- The argument pairs on which the engine invokes `get_diff`.  All three
callers — `assign_inc_dev_score_trail` (incdev.py:132-133),
`assign_loc_trail` (incdev.py:182-183) and `assign_drastic_change_trail`
(incdev.py:364-365) — walk the runs keeping `prev_code` (the previous run's
blank-stripped code, initially the empty string) and call
`get_diff(prev_code, code)` only under the guard `prev_code != ''`; so the
call arguments are exactly the consecutive pairs of stripped codes whose
first component is non-empty. -/
def getDiffCallArgs (runs : List Run) : List (List String × List String) :=
  ((strippedCodes runs).zip (strippedCodes runs).tail).filter
    (fun p => p.1 ≠ [])

theorem diffDenom_stripBlanks (code : List String) :
    diffDenom (stripBlanks code) = (stripBlanks code).length := by
  unfold diffDenom stripBlanks
  rw [List.filter_filter]
  congr 1
  apply List.filter_congr
  intro s _
  cases h : isBlank s <;> simp [h]

/-- C10: the division in `get_diff` never sees a zero denominator at any of
the engine's call sites: every pair passed to `get_diff` has a first
argument that is a blank-stripped, non-empty line list, and stripping keeps
only non-blank lines, so its non-blank line count is its (positive)
length. -/
theorem getDiff_denominator_pos (runs : List Run)
    (p : List String × List String) (hp : p ∈ getDiffCallArgs runs) :
    0 < diffDenom p.1 := by
  unfold getDiffCallArgs at hp
  have hmem := List.mem_filter.mp hp
  have hz := List.of_mem_zip (by exact hmem.1)
  have h1 : p.1 ∈ strippedCodes runs := hz.1
  unfold strippedCodes at h1
  obtain ⟨r, _, hr⟩ := List.mem_map.mp h1
  have hne : p.1 ≠ [] := by simpa using hmem.2
  rw [← hr, diffDenom_stripBlanks]
  rw [← hr] at hne
  exact List.length_pos.mpr hne

/-- Witness for C10 at a concrete two-run input. -/
theorem getDiff_denominator_pos_witness :
    (((["a"], ["b"]) : List String × List String) ∈
        getDiffCallArgs ([⟨1, ["a"], 0, 0⟩, ⟨1, ["b"], 60, 0⟩] : List Run)) ∧
      0 < diffDenom ["a"] :=
  ⟨by decide,
    getDiff_denominator_pos ([⟨1, ["a"], 0, 0⟩, ⟨1, ["b"], 60, 0⟩] : List Run)
      (["a"], ["b"]) (by decide)⟩

/-- Python string slicing `s[:-2]`: drop the last two characters (the whole
string if it has fewer than two). -/
def dropLast2 (s : String) : String := ⟨s.data.dropLast.dropLast⟩

/-- Python `s[-1]` as an optional value: the last character of a string. -/
def lastChar (s : String) : Option Char := s.data.getLast?

/-- Join a list of tokens with a separator and no trailing separator: the
shape every trail string takes after the source appends `token + sep` per
element and then slices the final separator off. -/
def joinSep (sep : String) : List String → String
  | [] => ""
  | [t] => t
  | t :: ts => t ++ sep ++ joinSep sep ts

/-- Concatenation of `token ++ ", "` over a list, mirroring the trail
accumulation loops before the final `[:-2]` slice. -/
def catSep : List String → String
  | [] => ""
  | t :: ts => (t ++ ", ") ++ catSep ts

theorem string_data_append (a b : String) : (a ++ b).data = a.data ++ b.data := rfl

theorem string_append_assoc (a b c : String) : a ++ b ++ c = a ++ (b ++ c) := by
  apply String.ext
  simp [string_data_append]

theorem dropLast2_sep (s : String) : dropLast2 (s ++ ", ") = s := by
  apply String.ext
  show ((s ++ ", ").data.dropLast.dropLast) = s.data
  rw [string_data_append]
  show (s.data ++ [',', ' ']).dropLast.dropLast = s.data
  rw [show s.data ++ [',', ' '] = (s.data ++ [',']) ++ [' '] by simp]
  rw [List.dropLast_concat, List.dropLast_concat]

theorem catSep_data_len (t : String) (ts : List String) :
    2 ≤ (catSep (t :: ts)).data.length := by
  show 2 ≤ ((t ++ ", ") ++ catSep ts).data.length
  rw [string_data_append, string_data_append]
  simp
  omega

theorem dropLast2_append_of_len (a b : String) (h : 2 ≤ b.data.length) :
    dropLast2 (a ++ b) = a ++ dropLast2 b := by
  apply String.ext
  show ((a ++ b).data.dropLast.dropLast) = (a ++ dropLast2 b).data
  rw [string_data_append, string_data_append]
  show (a.data ++ b.data).dropLast.dropLast = a.data ++ b.data.dropLast.dropLast
  have h1 : b.data ≠ [] := by
    intro hc; rw [hc] at h; simp at h
  rw [List.dropLast_append_of_ne_nil _ h1]
  have h2 : b.data.dropLast ≠ [] := by
    intro hc
    have hl := congrArg List.length hc
    rw [List.length_dropLast] at hl
    simp only [List.length_nil] at hl
    omega
  rw [List.dropLast_append_of_ne_nil _ h2]

theorem dropLast2_catSep (ts : List String) :
    dropLast2 (catSep ts) = joinSep ", " ts := by
  induction ts with
  | nil => rfl
  | cons t ts ih =>
    cases ts with
    | nil =>
      show dropLast2 ((t ++ ", ") ++ catSep []) = t
      show dropLast2 ((t ++ ", ") ++ "") = t
      have : (t ++ ", ") ++ "" = t ++ ", " := by
        apply String.ext
        simp [string_data_append]
      rw [this, dropLast2_sep]
    | cons t2 ts2 =>
      show dropLast2 ((t ++ ", ") ++ catSep (t2 :: ts2)) = t ++ ", " ++ joinSep ", " (t2 :: ts2)
      rw [dropLast2_append_of_len _ _ (catSep_data_len t2 ts2), ih,
        string_append_assoc]

theorem string_append_empty (a : String) : a ++ "" = a := by
  apply String.ext
  show a.data ++ ([] : List Char) = a.data
  simp

theorem string_empty_append (a : String) : "" ++ a = a := by
  apply String.ext
  show ([] : List Char) ++ a.data = a.data
  simp

theorem getDiff_nil (d : List String → List String → ℕ) (c : List String) :
    getDiff d [] c = 0 := by
  unfold getDiff diffDenom
  simp

/-- The trail-building loop of `assign_inc_dev_score_trail`
(incdev.py:128-150), carried state: accumulated string, score, previous
run's non-blank line count, previous run's stripped code.  Each iteration
optionally prepends `^` (diff ratio above .5 against a non-empty previous
code, incdev.py:132-135), appends the line count and a space, then applies
the score update — note the source clamps at 1 only in the `else` branch
here (incdev.py:145-146) — and appends `(score), `. -/
def sTrailGo (d : List String → List String → ℕ) :
    List Run → String → ℚ → ℕ → List String → String
  | [], acc, _, _, _ => acc
  | r :: rs, acc, score, prev_lines, prev_code =>
    let code := stripBlanks r.code
    let lc := code.length
    let acc1 := if prev_code ≠ [] ∧ 1/2 < getDiff d prev_code code then acc ++ "^" else acc
    let acc2 := acc1 ++ toString lc ++ " "
    if 20 < (lc : ℤ) - (prev_lines : ℤ) then
      let score2 := score - 4/100 * (((lc : ℤ) - (prev_lines : ℤ) - 20 : ℤ) : ℚ)
      sTrailGo d rs (acc2 ++ "(" ++ toString (round2 score2) ++ "), ") score2 lc code
    else
      let score2 := if 1 < score + 1/10 then 1 else score + 1/10
      sTrailGo d rs (acc2 ++ "(" ++ toString (round2 score2) ++ "), ") score2 lc code

/-- `assign_inc_dev_score_trail` (incdev.py:104-152): run the trail loop
from the empty string, score 1, previous line count 0 and empty previous
code, then slice off the final `', '` (incdev.py:151). -/
def assign_inc_dev_score_trail (d : List String → List String → ℕ)
    (runs : List Run) : String :=
  dropLast2 (sTrailGo d runs "" 1 0 [])

/-- The per-run tokens of the score trail as the specification describes
them: the line count — prefixed with `^` exactly when the diff ratio
against the immediately preceding run's stripped code exceeds .5 — followed
by the score of the `assign_inc_dev_score` recurrence (`scoreStep`: start
1, `+.1` or `-.04 * (delta - 20)`, ceiling clamp after every step) rounded
to two decimals in parentheses. -/
def scoreTrailTokens (d : List String → List String → ℕ) :
    List Run → ℚ → ℕ → List String → List String
  | [], _, _, _ => []
  | r :: rs, score, prev_lines, prev_code =>
    let code := stripBlanks r.code
    let lc := code.length
    let score2 := scoreStep prev_lines lc score
    ((if 1/2 < getDiff d prev_code code then "^" else "") ++
        toString lc ++ " " ++ "(" ++ toString (round2 score2) ++ ")")
      :: scoreTrailTokens d rs score2 lc code

theorem caret_cond_eq (d : List String → List String → ℕ)
    (pc code : List String) :
    (if pc ≠ [] ∧ 1/2 < getDiff d pc code then "^" else "") =
      (if 1/2 < getDiff d pc code then "^" else "") := by
  by_cases hpc : pc = []
  · subst hpc
    rw [getDiff_nil]
    norm_num
  · simp [hpc]

theorem if_append_push (c : Prop) [Decidable c] (acc t : String) :
    (if c then acc ++ t else acc) = acc ++ (if c then t else "") := by
  split
  · rfl
  · rw [string_append_empty]

theorem sTrailGo_eq (d : List String → List String → ℕ) :
    ∀ (rs : List Run) (acc : String) (s : ℚ) (p : ℕ) (pc : List String),
      s ≤ 1 →
      sTrailGo d rs acc s p pc = acc ++ catSep (scoreTrailTokens d rs s p pc) := by
  intro rs
  induction rs with
  | nil =>
    intro acc s p pc _
    show acc = acc ++ catSep []
    rw [show catSep [] = "" from rfl, string_append_empty]
  | cons r rs ih =>
    intro acc s p pc hs
    rw [sTrailGo, scoreTrailTokens]
    simp only []
    set code := stripBlanks r.code with hcode
    set lc := code.length with hlc
    set caret := (if 1/2 < getDiff d pc code then "^" else "") with hcaret
    have hacc1 : (if pc ≠ [] ∧ 1/2 < getDiff d pc code then acc ++ "^" else acc) =
        acc ++ caret := by
      rw [if_append_push, caret_cond_eq]
    by_cases hgt : 20 < (lc : ℤ) - (p : ℤ)
    · have hover : (1 : ℚ) ≤ (((lc : ℤ) - (p : ℤ) - 20 : ℤ) : ℚ) := by
        have : (1 : ℤ) ≤ (lc : ℤ) - (p : ℤ) - 20 := by omega
        exact_mod_cast this
      have hstep : scoreStep p lc s =
          s - 4/100 * (((lc : ℤ) - (p : ℤ) - 20 : ℤ) : ℚ) := by
        unfold scoreStep adjust_score
        rw [if_pos hgt, if_neg]
        linarith
      have hs2 : s - 4/100 * (((lc : ℤ) - (p : ℤ) - 20 : ℤ) : ℚ) ≤ 1 := by
        linarith
      rw [if_pos hgt, ih _ _ _ _ hs2, hacc1, hstep]
      rw [catSep]
      rw [show ("), " : String) = ")" ++ ", " from rfl]
      simp only [string_append_assoc]
    · have hstep : scoreStep p lc s = if 1 < s + 1/10 then 1 else s + 1/10 := by
        unfold scoreStep adjust_score
        rw [if_neg hgt]
      have hs2 : (if 1 < s + 1/10 then (1:ℚ) else s + 1/10) ≤ 1 := by
        split <;> linarith
      rw [if_neg hgt, ih _ _ _ _ hs2, hacc1, hstep]
      rw [catSep]
      rw [show ("), " : String) = ")" ++ ", " from rfl]
      simp only [string_append_assoc]

/-- C6: the score trail is the `', '`-separated list of per-run tokens in
which the printed score values follow exactly the recurrence of
`assign_inc_dev_score` (`scoreStep`, with the ceiling clamp after every
step), and a run's line-count token carries a `^` prefix exactly when the
diff ratio of its stripped code against the immediately preceding run's
stripped code exceeds .5. -/
theorem score_trail_matches_score_recurrence
    (d : List String → List String → ℕ) (runs : List Run) :
    assign_inc_dev_score_trail d runs =
      joinSep ", " (scoreTrailTokens d runs 1 0 []) := by
  unfold assign_inc_dev_score_trail
  rw [sTrailGo_eq d runs "" 1 0 [] (by norm_num), string_empty_append]
  exact dropLast2_catSep _

theorem dropLast2_empty : dropLast2 "" = "" := rfl

/-- The loop of `assign_drastic_change_trail` (incdev.py:359-369): walk the
stripped codes with a 1-based run counter, appending `run_num + ', '`
whenever the previous code is non-empty and the diff ratio against it
exceeds .7. -/
def dcTrailGo (d : List String → List String → ℕ) :
    List (List String) → String → ℕ → List String → String
  | [], acc, _, _ => acc
  | c :: cs, acc, num, prev =>
    dcTrailGo d cs
      (if prev ≠ [] ∧ 7/10 < getDiff d prev c then acc ++ toString num ++ ", " else acc)
      (num + 1) c

/-- `assign_drastic_change_trail` (incdev.py:342-372): run the loop from the
empty string, run number 1 and empty previous code, then slice off the
final `', '` (incdev.py:371). -/
def assign_drastic_change_trail (d : List String → List String → ℕ)
    (runs : List Run) : String :=
  dropLast2 (dcTrailGo d (strippedCodes runs) "" 1 [])

/-- The 1-based indices of exactly those runs whose diff ratio against their
immediate predecessor exceeds .7, as the specification describes the
drastic-change trail: consecutive pairs of stripped codes, numbered from 2
(the first run has no predecessor). -/
def drasticIndices (d : List String → List String → ℕ) (runs : List Run) :
    List ℕ :=
  (List.enumFrom 2 ((strippedCodes runs).zip (strippedCodes runs).tail)).filterMap
    (fun x => if 7/10 < getDiff d x.2.1 x.2.2 then some x.1 else none)

theorem dcTrailGo_eq (d : List String → List String → ℕ) :
    ∀ (cs : List (List String)) (acc : String) (num : ℕ) (prev : List String),
      dcTrailGo d cs acc num prev =
        acc ++ catSep (((List.enumFrom num ((prev :: cs).zip cs)).filterMap
          (fun x => if 7/10 < getDiff d x.2.1 x.2.2 then some x.1 else none)).map
            toString) := by
  intro cs
  induction cs with
  | nil =>
    intro acc num prev
    show acc = acc ++ catSep []
    rw [show catSep [] = "" from rfl, string_append_empty]
  | cons c cs ih =>
    intro acc num prev
    rw [dcTrailGo]
    have hzip : (prev :: c :: cs).zip (c :: cs) = (prev, c) :: ((c :: cs).zip cs) := rfl
    rw [hzip]
    have henum : List.enumFrom num ((prev, c) :: ((c :: cs).zip cs)) =
        (num, (prev, c)) :: List.enumFrom (num + 1) ((c :: cs).zip cs) := rfl
    rw [henum]
    by_cases hprev : prev = []
    · subst hprev
      have hcond : ¬ (7/10 < getDiff d ([] : List String) c) := by
        rw [getDiff_nil]; norm_num
      rw [if_neg (by simp [hcond]), List.filterMap_cons]
      simp only [hcond, if_false]
      exact ih acc (num + 1) c
    · by_cases hcond : 7/10 < getDiff d prev c
      · rw [if_pos ⟨hprev, hcond⟩, List.filterMap_cons]
        simp only [hcond, if_true]
        rw [ih _ (num + 1) c, List.map_cons, catSep]
        simp only [string_append_assoc]
      · rw [if_neg (by tauto), List.filterMap_cons]
        simp only [hcond, if_false]
        exact ih acc (num + 1) c

/-- C7: the drastic-change trail is the `', '`-joined list of the 1-based
indices of exactly those runs whose diff ratio against their immediate
predecessor exceeds .7, and it is empty whenever the sequence has at most
one run. -/
theorem drastic_change_trail_is_indices
    (d : List String → List String → ℕ) (runs : List Run) :
    assign_drastic_change_trail d runs =
        joinSep ", " ((drasticIndices d runs).map toString) ∧
      (runs.length ≤ 1 → assign_drastic_change_trail d runs = "") := by
  have hmain : assign_drastic_change_trail d runs =
      joinSep ", " ((drasticIndices d runs).map toString) := by
    unfold assign_drastic_change_trail drasticIndices
    cases hc : strippedCodes runs with
    | nil =>
      rw [show dcTrailGo d [] "" 1 [] = "" from rfl]
      rw [dropLast2_empty]
      rfl
    | cons c cs =>
      rw [dcTrailGo]
      rw [if_neg (by simp)]
      rw [dcTrailGo_eq d cs "" 2 c, string_empty_append, dropLast2_catSep]
      rfl
  refine ⟨hmain, fun hlen => ?_⟩
  rw [hmain]
  have hcl : (strippedCodes runs).length ≤ 1 := by
    unfold strippedCodes
    simpa using hlen
  unfold drasticIndices
  cases hc : strippedCodes runs with
  | nil => rfl
  | cons c cs =>
    rw [hc] at hcl
    simp at hcl
    subst hcl
    rfl

/-- Witness for C7: at a concrete one-run input, the trail is empty. -/
theorem drastic_change_trail_is_indices_witness :
    assign_drastic_change_trail (fun _ _ => 0) ([⟨1, ["a"], 0, 0⟩] : List Run) = "" :=
  (drastic_change_trail_is_indices (fun _ _ => 0)
    ([⟨1, ["a"], 0, 0⟩] : List Run)).2 (by decide)

/-- `get_submission_time_diff` (incdev.py:512-530): difference of two
timestamps in seconds.  The source first tests `curr == -1`, comparing a
`pandas.Timestamp` against the `-1` develop sentinel; that comparison is
false on every call path — `get_sub_sessions` passes genuine timestamps
only, and `assign_time_trail` calls this function only in its submit
branch, guarded by `sub_times[i] != -1` — so the sentinel branch is dead
and the function reduces to the subtraction. -/
def get_submission_time_diff (prev curr : ℤ) : ℤ := curr - prev

/-- `get_sub_sessions` (incdev.py:488-510): element 0 is 0; element `i` is 1
when the gap from timestamp `i-1` to timestamp `i` exceeds 1800 seconds,
else 0.  The indices produced by `range(1, len(run_times))` are always in
bounds, so the `getD` defaults are never consulted. -/
def get_sub_sessions (run_times : List ℤ) : List ℕ :=
  0 :: (List.range' 1 (run_times.length - 1)).map
    (fun i =>
      if get_submission_time_diff (run_times.getD (i-1) 0) (run_times.getD i 0) ≤ 1800
      then 0 else 1)

/-- C5: for a non-empty timestamp list the session-break list is aligned to
the input, starts with 0, and marks position `i` (`i ≥ 1`) with 1 exactly
when the gap `timestamps[i] - timestamps[i-1]` is strictly greater than
1800 seconds (so a gap of exactly 1800 gives no break and 1801 does). -/
theorem get_sub_sessions_spec (ts : List ℤ) (h : ts ≠ []) :
    (get_sub_sessions ts).length = ts.length ∧
      (get_sub_sessions ts).getD 0 9 = 0 ∧
      ∀ i, 1 ≤ i → i < ts.length →
        ((get_sub_sessions ts).getD i 9 = 1 ↔
          1800 < ts.getD i 0 - ts.getD (i-1) 0) := by
  have hpos : 1 ≤ ts.length := List.length_pos.mpr h
  refine ⟨?_, rfl, ?_⟩
  · unfold get_sub_sessions
    simp only [List.length_cons, List.length_map, List.length_range']
    omega
  · intro i h1 h2
    obtain ⟨j, rfl⟩ : ∃ j, i = j + 1 := ⟨i - 1, by omega⟩
    unfold get_sub_sessions
    rw [List.getD_cons_succ]
    have hj : j < ((List.range' 1 (ts.length - 1)).map
        (fun i =>
          if get_submission_time_diff (ts.getD (i-1) 0) (ts.getD i 0) ≤ 1800
          then 0 else 1)).length := by
      simp only [List.length_map, List.length_range']
      omega
    rw [List.getD_eq_getElem _ _ hj]
    rw [List.getElem_map]
    rw [List.getElem_range']
    unfold get_submission_time_diff
    have : 1 + 1 * j = j + 1 := by omega
    rw [this]
    have : j + 1 - 1 = j := by omega
    rw [this]
    split
    · rename_i hle
      constructor
      · intro hc; exact absurd hc (by norm_num)
      · intro hgt; omega
    · rename_i hgt
      constructor
      · intro _; omega
      · intro _; rfl

/-- Witness for C5: timestamps 0, 1800, 3601 — the exactly-1800 gap gives no
break, the 1801 gap does. -/
theorem get_sub_sessions_spec_witness :
    ((get_sub_sessions [0, 1800, 3601]).getD 1 9 = 1 ↔
        1800 < ([0, 1800, 3601] : List ℤ).getD 1 0 - ([0, 1800, 3601] : List ℤ).getD 0 0) ∧
      ((get_sub_sessions [0, 1800, 3601]).getD 2 9 = 1 ↔
        1800 < ([0, 1800, 3601] : List ℤ).getD 2 0 - ([0, 1800, 3601] : List ℤ).getD 1 0) :=
  ⟨(get_sub_sessions_spec [0, 1800, 3601] (by decide)).2.2 1 (by decide) (by decide),
    (get_sub_sessions_spec [0, 1800, 3601] (by decide)).2.2 2 (by decide) (by decide)⟩

/-- The `special_chars` list of `assign_time_trail` (incdev.py:245). -/
def specialChars : List Char := ['-', ',', '/', ' ']

/-- Python `sub_time_trail[-1] in special_chars`, total on the empty string
(the source only evaluates it under the guard `sub_time_trail != ''`). -/
def lastIsSpecial (s : String) : Bool :=
  match lastChar s with
  | some c => specialChars.contains c
  | none => false

/-- The rendering loop of `assign_time_trail` (incdev.py:258-280).  The
`sub_times` list mixes timestamps with the `-1` develop sentinel; since a
`pandas.Timestamp` is never the integer `-1`, the entries are modelled as
`Option ℤ` with `none` for the sentinel.  On a session break emit `' / '`
and reset `prev`; a develop entry emits `-`; a submit entry is preceded by
`,` unless the trail is empty or ends in a special character, and emits `0`
when it is the first submit of the session, else the minute-rounded gap
from the previous submit.  `session_breaks` is aligned with `sub_times`
(both come from the same runs list), so the lockstep `headD 0` reads model
the in-bounds `session_breaks[i]` accesses. -/
def timeTrailGo : List ℕ → List (Option ℤ) → String → Option ℤ → String
  | _, [], acc, _ => acc
  | breaks, st :: sts, acc, prev =>
    let b := breaks.headD 0
    let acc1 := if b = 1 then acc ++ " / " else acc
    let prev1 : Option ℤ := if b = 1 then none else prev
    match st with
    | none => timeTrailGo breaks.tail sts (acc1 ++ "-") prev1
    | some t =>
      let acc2 := if acc1 ≠ "" ∧ lastIsSpecial acc1 = false then acc1 ++ "," else acc1
      match prev1 with
      | none => timeTrailGo breaks.tail sts (acc2 ++ "0") (some t)
      | some p =>
        timeTrailGo breaks.tail sts
          (acc2 ++ toString (pyRound ((get_submission_time_diff p t : ℚ) / 60)))
          (some t)

/-- All runs' timestamps (`all_times`, incdev.py:250-251). -/
def allTimes (runs : List Run) : List ℤ := runs.map (fun r => r.sub_time)

/-- Per-run submit timestamps (`sub_times`, incdev.py:252-255): the
timestamp for a SUBMIT run, the develop sentinel (`-1` in the source,
`none` here) for a DEVELOP run. -/
def subTimes (runs : List Run) : List (Option ℤ) :=
  runs.map (fun r => if r.type = 1 then some r.sub_time else none)

/-- `assign_time_trail` (incdev.py:226-282): session breaks are computed
from all runs' timestamps (incdev.py:256), the rendering loop walks
`sub_times` from the empty trail with no previous submit. -/
def assign_time_trail (runs : List Run) : String :=
  timeTrailGo (get_sub_sessions (allTimes runs)) (subTimes runs) "" none

/-- Counterexample to C8 as stated: two run sequences that agree on all
SUBMIT timestamps (0 and 2000) and on the DEVELOP position (run 2), and
differ only in the DEVELOP run's timestamp (100 vs 1000), produce different
time trails — `'0- / 0'` vs `'0-33'` — because the session-break markers
are computed from all runs' timestamps, develop runs included
(incdev.py:250-256), not from the submitted runs' timestamps only. -/
theorem time_trail_counterexample :
    subTimes ([⟨1, [], 0, 0⟩, ⟨0, [], 100, 0⟩, ⟨1, [], 2000, 0⟩] : List Run) =
        subTimes ([⟨1, [], 0, 0⟩, ⟨0, [], 1000, 0⟩, ⟨1, [], 2000, 0⟩] : List Run) ∧
      assign_time_trail ([⟨1, [], 0, 0⟩, ⟨0, [], 100, 0⟩, ⟨1, [], 2000, 0⟩] : List Run) = "0- / 0" ∧
      assign_time_trail ([⟨1, [], 0, 0⟩, ⟨0, [], 1000, 0⟩, ⟨1, [], 2000, 0⟩] : List Run) = "0-33" := by
  refine ⟨by decide, ?_, ?_⟩ <;> with_unfolding_all decide

theorem lastChar_append_single (s t : String) (c : Char) (h : t.data = [c]) :
    lastChar (s ++ t) = some c := by
  unfold lastChar
  rw [string_data_append, h]
  exact List.getLast?_concat _

/-- C8 (amended): the time trail is a function of the session-break list —
computed from ALL runs' timestamps, develop runs included — and the
submit-timestamp list only; two sequences agreeing on both produce the same
trail, and the per-run minute gaps use submit timestamps only.  Moreover a
DEVELOP run immediately followed, with no session break, by the first
SUBMIT of a session contributes the fragment `-0` with no comma between the
dash and the zero. -/
theorem time_trail_amended :
    (∀ r1 r2 : List Run,
        get_sub_sessions (allTimes r1) = get_sub_sessions (allTimes r2) →
        subTimes r1 = subTimes r2 →
        assign_time_trail r1 = assign_time_trail r2) ∧
      ∀ (bs : List ℕ) (ss : List (Option ℤ)) (acc : String) (t : ℤ),
        timeTrailGo (0 :: 0 :: bs) (none :: some t :: ss) acc none =
          timeTrailGo bs ss (acc ++ "-0") (some t) := by
  constructor
  · intro r1 r2 hb hs
    unfold assign_time_trail
    rw [hb, hs]
  · intro bs ss acc t
    have hsp : lastIsSpecial (acc ++ "-") = true := by
      unfold lastIsSpecial
      rw [lastChar_append_single acc "-" '-' rfl]
      rfl
    have step1 : timeTrailGo (0 :: 0 :: bs) (none :: some t :: ss) acc none =
        timeTrailGo (0 :: bs) (some t :: ss) (acc ++ "-") none := by
      rw [timeTrailGo]
      norm_num
    have step2 : timeTrailGo (0 :: bs) (some t :: ss) (acc ++ "-") none =
        timeTrailGo bs ss ((acc ++ "-") ++ "0") (some t) := by
      rw [timeTrailGo]
      norm_num [hsp]
    rw [step1, step2, string_append_assoc]
    have hds : ("-" : String) ++ "0" = "-0" := by decide
    rw [hds]

/-- Witness for C8 (amended): two concrete one-run sequences with equal
break lists and equal submit timestamps get equal trails. -/
theorem time_trail_amended_witness :
    assign_time_trail ([⟨1, ["a"], 0, 5⟩] : List Run) =
      assign_time_trail ([⟨1, ["b"], 0, 7⟩] : List Run) :=
  time_trail_amended.1 ([⟨1, ["a"], 0, 5⟩] : List Run) ([⟨1, ["b"], 0, 7⟩] : List Run)
    (by decide) (by decide)

/-- The `drastic_change` list built at the top of `assign_loc_trail`
(incdev.py:175-188): it starts as `[0]` and, for each run after the first,
appends a flag only when the previous run's stripped code is non-empty —
so it is shorter than the line-count list whenever a run other than the
last has no non-blank lines. -/
def dcListFold (d : List String → List String → ℕ)
    (codes : List (List String)) : List ℕ :=
  (codes.foldl
    (fun acc code =>
      (if acc.2 ≠ ([] : List String) then
        acc.1 ++ [if 7/10 < getDiff d acc.2 code then 1 else 0]
      else acc.1, code))
    (([0] : List ℕ), ([] : List String))).1

/-- Python `relevance_list[-1] = 1` (incdev.py:196, 200): overwrite the last
element with 1. -/
def setLastOne (rl : List ℕ) : List ℕ := rl.set (rl.length - 1) 1

/-- The preliminary relevance loop of `assign_loc_trail` (incdev.py:190-205)
over `range(1, len(lines) - 1)`: a step of more than 20 new lines tags the
run 2 (IncDev violation), a step of more than 10 lines in either direction
or a drastic-change flag tags it 1, otherwise 0; the two notable branches
also force the previous tag to 1.  The `or` in the source short-circuits,
so `drastic_change[i]` — the only access here that can be out of bounds —
is read only when the line-delta test fails; it is modelled with
`List.get?`.  The `lines` accesses are in bounds: `i` ranges over interior
indices. -/
def prelimGo (lines dc : List ℕ) : List ℕ → List ℕ → Option (List ℕ)
  | rl, [] => some (rl ++ [1])
  | rl, i :: is =>
    if 20 < (lines.getD i 0 : ℤ) - (lines.getD (i-1) 0 : ℤ) then
      prelimGo lines dc (setLastOne rl ++ [2]) is
    else if 10 < |(lines.getD i 0 : ℤ) - (lines.getD (i-1) 0 : ℤ)| then
      prelimGo lines dc (setLastOne rl ++ [1]) is
    else
      match dc.get? i with
      | none => none
      | some dci =>
        if dci = 1 then prelimGo lines dc (setLastOne rl ++ [1]) is
        else prelimGo lines dc (rl ++ [0]) is

/-- Python truthiness of the `start_loc`/`end_loc` variables: `None` and `0`
are falsy, any other integer truthy. -/
def truthy : Option ℕ → Bool
  | none => false
  | some n => n != 0

/-- `for j in range(a, a + n): rl[j] = 1`, by recursion on the count. -/
def setOnesN : List ℕ → ℕ → ℕ → List ℕ
  | rl, _, 0 => rl
  | rl, a, n+1 => setOnesN (rl.set a 1) (a+1) n

/-- Python `for j in range(start_loc, end_loc + 1): relevance_list[j] = 1`
(incdev.py:437-438): empty when `start_loc > end_loc`. -/
def setOnes (rl : List ℕ) (a b : ℕ) : List ℕ := setOnesN rl a (b + 1 - a)

/-- The inner promotion loop of `check_subsequence_values`
(incdev.py:470-482): walk `j` over the range fixed at entry; the trend
endpoints `lines[start_loc]`/`lines[end_loc]` are re-read with the current
`start_loc`, which moves to `j + 1` after each promotion.  All `lines`
accesses are in bounds at every call site (`j ≤ en ≤ len - 2` and
`st ≤ en + 1`). -/
def csvInner (lines : List ℕ) (en : ℕ) : List ℕ → List ℕ → ℕ → List ℕ × ℕ
  | [], rl, st => (rl, st)
  | j :: js, rl, st =>
    if lines.getD st 0 < lines.getD en 0 then
      if lines.getD j 0 < lines.getD st 0 ∨ lines.getD en 0 < lines.getD j 0 then
        csvInner lines en js (rl.set j 1) (j+1)
      else csvInner lines en js rl st
    else
      if lines.getD st 0 < lines.getD j 0 ∨ lines.getD j 0 < lines.getD en 0 then
        csvInner lines en js (rl.set j 1) (j+1)
      else csvInner lines en js rl st

/-- The `if start_loc and end_loc` block of `check_subsequence_values`
(incdev.py:469-484), Python truthiness included: when both markers are
truthy, run the inner promotion loop over `range(start_loc, end_loc + 1)`
(computed with the entry value of `start_loc`) and reset both markers. -/
def csvTail (lines rl : List ℕ) (s1 e1 : Option ℕ) :
    List ℕ × Option ℕ × Option ℕ :=
  if truthy s1 = true ∧ truthy e1 = true then
    ((csvInner lines (e1.getD 0)
        (List.range' (s1.getD 0) (e1.getD 0 + 1 - s1.getD 0)) rl (s1.getD 0)).1,
      none, none)
  else (rl, s1, e1)

/-- One iteration of the outer loop of `check_subsequence_values`
(incdev.py:462-484): the `if`/`elif` start/end detection on the current
list, then the `if start_loc and end_loc` block. -/
def csvStep (lines rl : List ℕ) (s e : Option ℕ) (i : ℕ) :
    List ℕ × Option ℕ × Option ℕ :=
  let x := rl.getD i 0
  let b := rl.getD (i-1) 0
  let s1 : Option ℕ := if x = 0 ∧ 0 < b then some i else s
  let e1 : Option ℕ := if ¬(x = 0 ∧ 0 < b) ∧ (0 < x ∧ b = 0) then some (i-1) else e
  csvTail lines rl s1 e1

/-- The outer loop of `check_subsequence_values` over
`range(1, len(relevance_list))`. -/
def csvGo (lines : List ℕ) : List ℕ → Option ℕ → Option ℕ → List ℕ → List ℕ
  | rl, _, _, [] => rl
  | rl, s, e, i :: is =>
    match csvStep lines rl s e i with
    | (rl2, s2, e2) => csvGo lines rl2 s2 e2 is

/-- `check_subsequence_values` (incdev.py:443-485). -/
def check_subsequence_values (rl lines : List ℕ) : List ℕ :=
  csvGo lines rl none none (List.range' 1 (rl.length - 1))

/-- The `if start_loc and end_loc` block of `check_subsequence_length`
(incdev.py:434-440): when both markers are truthy, promote the whole
sub-run to 1 if it has fewer than 3 elements (`end_loc - start_loc < 2`,
Python integer arithmetic), and reset both markers. -/
def cslCheck (rl : List ℕ) (s e : Option ℕ) : List ℕ × Option ℕ × Option ℕ :=
  if truthy s = true ∧ truthy e = true then
    (if (e.getD 0 : ℤ) - (s.getD 0 : ℤ) < 2 then setOnes rl (s.getD 0) (e.getD 0)
     else rl, none, none)
  else (rl, s, e)

/-- One iteration of the loop of `check_subsequence_length`
(incdev.py:423-440): the `if`/`elif`/`elif` chain — start detection, end
detection, and the cut that promotes `relevance_list[i]` when an open
sub-run reaches `i - start_loc == 10` — followed by the
`if start_loc and end_loc` block. -/
def cslStep (rl : List ℕ) (s e : Option ℕ) (i : ℕ) :
    List ℕ × Option ℕ × Option ℕ :=
  let x := rl.getD i 0
  let b := rl.getD (i-1) 0
  let chain : List ℕ × Option ℕ × Option ℕ :=
    if x = 0 ∧ 0 < b then (rl, some i, e)
    else if 0 < x ∧ b = 0 then (rl, s, some (i-1))
    else if truthy s = true ∧ (i : ℤ) - (s.getD 0 : ℤ) = 10 then (rl.set i 1, none, e)
    else (rl, s, e)
  cslCheck chain.1 chain.2.1 chain.2.2

/-- The loop of `check_subsequence_length` over
`range(1, len(relevance_list))`. -/
def cslGo : List ℕ → Option ℕ → Option ℕ → List ℕ → List ℕ
  | rl, _, _, [] => rl
  | rl, s, e, i :: is =>
    match cslStep rl s e i with
    | (rl2, s2, e2) => cslGo rl2 s2 e2 is

/-- `check_subsequence_length` (incdev.py:405-441). -/
def check_subsequence_length (rl : List ℕ) : List ℕ :=
  cslGo rl none none (List.range' 1 (rl.length - 1))

/-- The relevance classification of `assign_loc_trail` (incdev.py:190-209):
the preliminary list `[1]` extended over the interior indices
`range(1, len(lines) - 1)`, closed with a final 1, then refined by
`check_subsequence_values` and `check_subsequence_length`. -/
def relevanceClassify (lines dc : List ℕ) : Option (List ℕ) :=
  (prelimGo lines dc [1] (List.range' 1 (lines.length - 2))).map
    (fun rl => check_subsequence_length (check_subsequence_values rl lines))

/-- The rendering loop of `assign_loc_trail` (incdev.py:211-223) over
`range(1, len(lines))`: tag 0 renders `.`; otherwise a `,` unless the trail
ends in `.`, then `^` on a drastic-change flag — `drastic_change[i]` is the
access that can be out of bounds and is modelled with `List.get?` — then
the line count, starred for tag 2.  `relevance_list` and `lines` accesses
are in bounds (`i < len(lines) ≤ len(relevance_list)` whenever this loop
runs), and the trail is never empty here (it starts as `str(lines[0])`), so
`lastChar` models `loc_trail[-1]` faithfully. -/
def renderGo (lines dc rl : List ℕ) : String → List ℕ → Option String
  | acc, [] => some acc
  | acc, i :: is =>
    if rl.getD i 0 = 0 then renderGo lines dc rl (acc ++ ".") is
    else
      let acc1 := if lastChar acc ≠ some '.' then acc ++ "," else acc
      match dc.get? i with
      | none => none
      | some dci =>
        let acc2 := if dci = 1 then acc1 ++ "^" else acc1
        if rl.getD i 0 = 1 then
          renderGo lines dc rl (acc2 ++ toString (lines.getD i 0)) is
        else
          renderGo lines dc rl (acc2 ++ toString (lines.getD i 0) ++ "*") is

/-- `assign_loc_trail` (incdev.py:154-224): build the line counts and the
drastic-change flags, classify, then render starting from `str(lines[0])`
— the access `lines[0]` raises on an empty run list and is modelled with
`List.get?` (the classification runs first, as in the source). -/
def assign_loc_trail (d : List String → List String → ℕ)
    (runs : List Run) : Option String :=
  let codes := strippedCodes runs
  let lines := codes.map List.length
  let dc := dcListFold d codes
  match relevanceClassify lines dc with
  | none => none
  | some rl =>
    match lines.get? 0 with
    | none => none
    | some l0 => renderGo lines dc rl (toString l0) (List.range' 1 (lines.length - 1))

theorem getD_set_self_one (l : List ℕ) (j : ℕ) (h : j < l.length) :
    (l.set j 1).getD j 0 = 1 := by
  rw [List.getD_eq_getElem?_getD, List.getElem?_set_self h]
  rfl

theorem getD_set_other (l : List ℕ) (j k : ℕ) (h : j ≠ k) :
    (l.set j 1).getD k 0 = l.getD k 0 := by
  rw [List.getD_eq_getElem?_getD, List.getElem?_set_ne h, ← List.getD_eq_getElem?_getD]

/-- Effect relation of the two refinement passes: they only rewrite
positions to 1 and preserve the length. -/
def Mod1 (a b : List ℕ) : Prop :=
  b.length = a.length ∧ ∀ k, b.getD k 0 = a.getD k 0 ∨ b.getD k 0 = 1

theorem Mod1_refl (a : List ℕ) : Mod1 a a := ⟨rfl, fun _ => Or.inl rfl⟩

theorem Mod1_trans {a b c : List ℕ} (h1 : Mod1 a b) (h2 : Mod1 b c) : Mod1 a c := by
  refine ⟨h2.1.trans h1.1, fun k => ?_⟩
  rcases h2.2 k with h | h
  · rw [h]; exact h1.2 k
  · exact Or.inr h

theorem Mod1_set (a : List ℕ) (j : ℕ) : Mod1 a (a.set j 1) := by
  refine ⟨List.length_set a j 1, fun k => ?_⟩
  by_cases h : j = k
  · subst h
    by_cases hl : j < a.length
    · exact Or.inr (getD_set_self_one a j hl)
    · left
      rw [List.getD_eq_getElem?_getD, List.getD_eq_getElem?_getD, List.getElem?_set,
        List.getElem?_eq_none (le_of_not_lt hl)]
      simp [hl]
  · exact Or.inl (getD_set_other a j k h)

theorem Mod1_setOnesN : ∀ (n : ℕ) (a : List ℕ) (j : ℕ), Mod1 a (setOnesN a j n)
  | 0, a, _ => Mod1_refl a
  | n+1, a, j => Mod1_trans (Mod1_set a j) (Mod1_setOnesN n (a.set j 1) (j+1))

theorem Mod1_setOnes (a : List ℕ) (x y : ℕ) : Mod1 a (setOnes a x y) :=
  Mod1_setOnesN _ a x

theorem Mod1_csvInner (lines : List ℕ) (en : ℕ) :
    ∀ (js rl : List ℕ) (st : ℕ), Mod1 rl (csvInner lines en js rl st).1 := by
  intro js
  induction js with
  | nil => intro rl st; exact Mod1_refl rl
  | cons j js ih =>
    intro rl st
    rw [csvInner]
    split
    · split
      · exact Mod1_trans (Mod1_set rl j) (ih _ _)
      · exact ih _ _
    · split
      · exact Mod1_trans (Mod1_set rl j) (ih _ _)
      · exact ih _ _

theorem Mod1_csvTail (lines rl : List ℕ) (s1 e1 : Option ℕ) :
    Mod1 rl (csvTail lines rl s1 e1).1 := by
  unfold csvTail
  split
  · exact Mod1_csvInner _ _ _ _ _
  · exact Mod1_refl rl

theorem Mod1_csvStep (lines rl : List ℕ) (s e : Option ℕ) (i : ℕ) :
    Mod1 rl (csvStep lines rl s e i).1 := by
  simp only [csvStep]
  exact Mod1_csvTail _ _ _ _

theorem csvGo_cons (lines rl : List ℕ) (s e : Option ℕ) (i : ℕ) (is : List ℕ) :
    csvGo lines rl s e (i :: is) =
      csvGo lines (csvStep lines rl s e i).1 (csvStep lines rl s e i).2.1
        (csvStep lines rl s e i).2.2 is := rfl

theorem Mod1_csvGo (lines : List ℕ) :
    ∀ (is rl : List ℕ) (s e : Option ℕ), Mod1 rl (csvGo lines rl s e is) := by
  intro is
  induction is with
  | nil => intro rl s e; exact Mod1_refl rl
  | cons i is ih =>
    intro rl s e
    rw [csvGo_cons]
    exact Mod1_trans (Mod1_csvStep lines rl s e i) (ih _ _ _)

theorem Mod1_cslCheck (rl : List ℕ) (s e : Option ℕ) :
    Mod1 rl (cslCheck rl s e).1 := by
  unfold cslCheck
  split
  · split
    · exact Mod1_setOnes _ _ _
    · exact Mod1_refl rl
  · exact Mod1_refl rl

theorem Mod1_cslStep (rl : List ℕ) (s e : Option ℕ) (i : ℕ) :
    Mod1 rl (cslStep rl s e i).1 := by
  simp only [cslStep]
  have h : ∀ c : List ℕ × Option ℕ × Option ℕ,
      c.1 = rl ∨ c.1 = rl.set i 1 → Mod1 rl (cslCheck c.1 c.2.1 c.2.2).1 := by
    intro c hc
    rcases hc with h | h <;> rw [h]
    · exact Mod1_cslCheck _ _ _
    · exact Mod1_trans (Mod1_set rl i) (Mod1_cslCheck _ _ _)
  apply h
  split
  · exact Or.inl rfl
  · split
    · exact Or.inl rfl
    · split
      · exact Or.inr rfl
      · exact Or.inl rfl

theorem cslGo_cons (rl : List ℕ) (s e : Option ℕ) (i : ℕ) (is : List ℕ) :
    cslGo rl s e (i :: is) =
      cslGo (cslStep rl s e i).1 (cslStep rl s e i).2.1 (cslStep rl s e i).2.2 is := rfl

theorem Mod1_cslGo :
    ∀ (is rl : List ℕ) (s e : Option ℕ), Mod1 rl (cslGo rl s e is) := by
  intro is
  induction is with
  | nil => intro rl s e; exact Mod1_refl rl
  | cons i is ih =>
    intro rl s e
    rw [cslGo_cons]
    exact Mod1_trans (Mod1_cslStep rl s e i) (ih _ _ _)

theorem Mod1_passes (rl lines : List ℕ) :
    Mod1 rl (check_subsequence_length (check_subsequence_values rl lines)) :=
  Mod1_trans (Mod1_csvGo lines _ rl none none) (Mod1_cslGo _ _ none none)

theorem setLastOne_getD_zero (rl : List ℕ) (h : rl.getD 0 0 = 1) :
    (setLastOne rl).getD 0 0 = 1 := by
  unfold setLastOne
  by_cases h0 : rl.length - 1 = 0
  · rw [h0]
    have hpos : 0 < rl.length := by
      by_contra hc
      have : rl = [] := by
        cases rl with
        | nil => rfl
        | cons a l => simp at hc
      rw [this] at h
      simp at h
    rw [getD_set_self_one rl 0 hpos]
  · rw [getD_set_other rl _ 0 h0]
    exact h

theorem setLastOne_length (rl : List ℕ) : (setLastOne rl).length = rl.length := by
  simp [setLastOne]

theorem setLastOne_mem (rl : List ℕ) (x : ℕ) (hx : x ∈ setLastOne rl) :
    x ∈ rl ∨ x = 1 := List.mem_or_eq_of_mem_set hx

/-- Behaviour of the preliminary relevance loop: on index lists whose
entries are all within the drastic-change list, it succeeds and returns a
list one longer than start-plus-indices, with first and last tag 1 and all
tags in {0, 1, 2}. -/
theorem prelimGo_spec (lines dc : List ℕ) :
    ∀ (is rl : List ℕ),
      (∀ i ∈ is, i < dc.length) → rl ≠ [] → rl.getD 0 0 = 1 →
      (∀ x ∈ rl, x = 0 ∨ x = 1 ∨ x = 2) →
      ∃ out, prelimGo lines dc rl is = some out ∧
        out.length = rl.length + is.length + 1 ∧
        out.getD 0 0 = 1 ∧ out.getD (out.length - 1) 0 = 1 ∧
        ∀ x ∈ out, x = 0 ∨ x = 1 ∨ x = 2 := by
  intro is
  induction is with
  | nil =>
    intro rl _ hne h0 hmem
    refine ⟨rl ++ [1], rfl, by simp, ?_, ?_, ?_⟩
    · rw [List.getD_append _ _ _ 0 (List.length_pos.mpr hne)]
      exact h0
    · have hlen : (rl ++ [1]).length - 1 = rl.length := by simp
      rw [hlen, List.getD_eq_getElem _ _ (by simp)]
      exact List.getElem_concat_length rl 1 rl.length rfl _
    · intro x hx
      rcases List.mem_append.mp hx with hx | hx
      · exact hmem x hx
      · simp at hx; subst hx; right; left; rfl
  | cons i is ih =>
    intro rl hdc hne h0 hmem
    have hidc : i < dc.length := hdc i (by simp)
    have hdc' : ∀ j ∈ is, j < dc.length := fun j hj => hdc j (by simp [hj])
    have hgo : ∀ (base : List ℕ) (v : ℕ), v = 0 ∨ v = 1 ∨ v = 2 →
        base.getD 0 0 = 1 → (∀ x ∈ base, x = 0 ∨ x = 1 ∨ x = 2) →
        base.length = rl.length →
        ∃ out, prelimGo lines dc (base ++ [v]) is = some out ∧
          out.length = rl.length + (i :: is).length + 1 ∧
          out.getD 0 0 = 1 ∧ out.getD (out.length - 1) 0 = 1 ∧
          ∀ x ∈ out, x = 0 ∨ x = 1 ∨ x = 2 := by
      intro base v hv h0b hmb hlb
      have hbne : base ++ [v] ≠ [] := by simp
      have hbne2 : base ≠ [] := by
        intro hc
        rw [hc] at h0b
        simp at h0b
      have h0' : (base ++ [v]).getD 0 0 = 1 := by
        rw [List.getD_append _ _ _ 0 (List.length_pos.mpr hbne2)]
        exact h0b
      have hm' : ∀ x ∈ base ++ [v], x = 0 ∨ x = 1 ∨ x = 2 := by
        intro x hx
        rcases List.mem_append.mp hx with hx | hx
        · exact hmb x hx
        · simp at hx; subst hx; exact hv
      obtain ⟨out, ho1, ho2, ho3, ho4, ho5⟩ := ih (base ++ [v]) hdc' hbne h0' hm'
      refine ⟨out, ho1, ?_, ho3, ho4, ho5⟩
      simp only [List.length_append, List.length_cons, List.length_nil] at ho2 ⊢
      omega
    have hsl0 : (setLastOne rl).getD 0 0 = 1 := setLastOne_getD_zero rl h0
    have hslm : ∀ x ∈ setLastOne rl, x = 0 ∨ x = 1 ∨ x = 2 := by
      intro x hx
      rcases setLastOne_mem rl x hx with hx | hx
      · exact hmem x hx
      · subst hx; right; left; rfl
    rw [prelimGo]
    by_cases hA : 20 < (lines.getD i 0 : ℤ) - (lines.getD (i-1) 0 : ℤ)
    · rw [if_pos hA]
      exact hgo (setLastOne rl) 2 (by tauto) hsl0 hslm (setLastOne_length rl)
    · rw [if_neg hA]
      by_cases hB : 10 < |(lines.getD i 0 : ℤ) - (lines.getD (i-1) 0 : ℤ)|
      · rw [if_pos hB]
        exact hgo (setLastOne rl) 1 (by tauto) hsl0 hslm (setLastOne_length rl)
      · rw [if_neg hB]
        have hsome : dc.get? i = some (dc.getD i 0) := by
          rw [List.get?_eq_getElem?, List.getElem?_eq_getElem hidc,
            List.getD_eq_getElem _ _ hidc]
        rw [hsome]
        dsimp only
        by_cases hC : dc.getD i 0 = 1
        · rw [if_pos hC]
          exact hgo (setLastOne rl) 1 (by tauto) hsl0 hslm (setLastOne_length rl)
        · rw [if_neg hC]
          exact hgo rl 0 (by tauto) h0 hmem rfl

theorem csv_pair_ones (lines : List ℕ) :
    check_subsequence_values [1, 1] lines = [1, 1] := by
  unfold check_subsequence_values
  have hr : List.range' 1 (([1, 1] : List ℕ).length - 1) = [1] := by decide
  rw [hr, csvGo_cons]
  have hstep : csvStep lines [1, 1] none none 1 = ([1, 1], none, none) := by
    simp [csvStep, csvTail, truthy]
  rw [hstep]
  rfl

theorem csl_pair_ones : check_subsequence_length [1, 1] = [1, 1] := by decide

/-- C4 (amended): for every line-count list with an aligned drastic-change
list, the relevance classification succeeds; for inputs of length at least
2 it has the same length as the input, tags in {0, 1, 2} and first and last
tag forced to 1, while for inputs of length 0 or 1 it is the two-element
list `[1, 1]` (so the same-length contract fails there). -/
theorem relevance_classification_shape (lines dc : List ℕ)
    (hdc : dc.length = lines.length) :
    ∃ rl, relevanceClassify lines dc = some rl ∧
      (2 ≤ lines.length →
        rl.length = lines.length ∧ rl.getD 0 0 = 1 ∧
        rl.getD (rl.length - 1) 0 = 1 ∧ ∀ x ∈ rl, x = 0 ∨ x = 1 ∨ x = 2) ∧
      (lines.length ≤ 1 → rl = [1, 1]) := by
  have hbound : ∀ i ∈ List.range' 1 (lines.length - 2), i < dc.length := by
    intro i hi
    rw [List.mem_range'_1] at hi
    omega
  obtain ⟨out, hout, hlen, h0, hlast, hmem⟩ :=
    prelimGo_spec lines dc (List.range' 1 (lines.length - 2)) [1] hbound
      (by simp) rfl (by intro x hx; simp at hx; subst hx; tauto)
  have hM := Mod1_passes out lines
  refine ⟨check_subsequence_length (check_subsequence_values out lines), ?_, ?_, ?_⟩
  · rw [relevanceClassify, hout, Option.map_some']
  · intro h2
    have hlen2 : out.length = lines.length := by
      rw [hlen]
      simp only [List.length_cons, List.length_nil, List.length_range']
      omega
    have hflen : (check_subsequence_length (check_subsequence_values out lines)).length =
        lines.length := by rw [hM.1, hlen2]
    refine ⟨hflen, ?_, ?_, ?_⟩
    · rcases hM.2 0 with h | h
      · rw [h, h0]
      · exact h
    · rw [hflen, ← hlen2]
      rcases hM.2 (out.length - 1) with h | h
      · rw [h, hlast]
      · exact h
    · intro x hx
      obtain ⟨k, hk, hkx⟩ := List.mem_iff_getElem.mp hx
      rw [← List.getD_eq_getElem _ 0 hk] at hkx
      rcases hM.2 k with h | h
      · rw [h] at hkx
        have hkout : k < out.length := by rw [hlen2, ← hflen]; exact hk
        rw [List.getD_eq_getElem _ 0 hkout] at hkx
        exact hmem x (hkx ▸ List.getElem_mem hkout)
      · rw [h] at hkx
        right; left; exact hkx.symm
  · intro h1
    have hz : lines.length - 2 = 0 := by omega
    rw [hz] at hout
    have hout2 : out = [1, 1] := by
      have : prelimGo lines dc [1] (List.range' 1 0) = some ([1] ++ [1]) := rfl
      rw [this] at hout
      exact (Option.some.injEq _ _).mp hout.symm ▸ rfl
    rw [hout2, csv_pair_ones, csl_pair_ones]

/-- Counterexample to C4 as stated: for the length-1 input `[5]` (with
aligned drastic-change list `[0]`) the relevance classification is the
two-element list `[1, 1]`, which does not have the same length as the
input. -/
theorem relevance_classification_counterexample :
    relevanceClassify [5] [0] = some [1, 1] ∧
      (relevanceClassify [5] [0]).map List.length ≠ some (([5] : List ℕ).length) := by
  decide

/-- Witness for C4 (amended) at a concrete length-3 input. -/
theorem relevance_classification_shape_witness :
    (([0, 0, 0] : List ℕ).length = ([3, 4, 5] : List ℕ).length) ∧
      ∃ rl, relevanceClassify [3, 4, 5] [0, 0, 0] = some rl ∧
        (2 ≤ ([3, 4, 5] : List ℕ).length →
          rl.length = ([3, 4, 5] : List ℕ).length ∧ rl.getD 0 0 = 1 ∧
          rl.getD (rl.length - 1) 0 = 1 ∧ ∀ x ∈ rl, x = 0 ∨ x = 1 ∨ x = 2) ∧
        (([3, 4, 5] : List ℕ).length ≤ 1 → rl = [1, 1]) :=
  ⟨by decide, relevance_classification_shape [3, 4, 5] [0, 0, 0] (by decide)⟩

/-- `get_day_of_week` (incdev.py:550-565) over an abstract `weekday`
function (Python's `datetime.weekday()`, Monday = 0): the space-surrounded
day letter from the `weekday_key` dictionary. -/
def get_day_of_week (weekday : ℤ → Fin 7) (t : ℤ) : String :=
  [" M ", " T ", " W ", " R ", " F ", " S ", " U "].getD (weekday t).val ""

/-- The loop of `assign_coding_trail` (incdev.py:320-338) over
`range(len(runs))`, carrying the trail and the week marker.  The calendar
formatting of the standard library is abstract: `fmtMD` is
`strftime('%m/%d')` and `dateDays` the ordinal day of `.date()`, so the
week test `(a.date() - b.date()).days >= 7` becomes
`7 ≤ dateDays a - dateDays b`, and `strftime(' %m/%d')` is a space
followed by `fmtMD`.  In the score condition the source evaluates
`vals['run_type'][i - 1] == 0 or i == 0 or coding_trail[-1] == ' '`; at
`i = 0` the first read wraps around to the last element without raising
and the disjunction is true regardless, so testing `i = 0` first is
value-equivalent, and `coding_trail[-1]` is only reached with `i ≠ 0`, when
the trail is non-empty.  All list accesses here are in bounds
(`i < len(runs)`). -/
def codingGo (weekday : ℤ → Fin 7) (fmtMD : ℤ → String) (dateDays : ℤ → ℤ)
    (rts : List ℕ) (scores : List ℤ) (dts : List ℤ) :
    List ℕ → String → ℤ → String
  | [], acc, _ => acc
  | i :: is, acc, wm =>
    let day := get_day_of_week weekday (dts.getD i 0)
    let step : String × ℤ :=
      if i = 0 then (fmtMD (dts.getD i 0) ++ day, wm)
      else if get_day_of_week weekday (dts.getD (i-1) 0) ≠ day then
        if 7 ≤ dateDays (dts.getD i 0) - dateDays wm then
          (acc ++ " " ++ fmtMD (dts.getD i 0) ++ day, dts.getD i 0)
        else (acc ++ day, wm)
      else (acc, wm)
    let acc2 :=
      if rts.getD i 0 = 0 then step.1 ++ "-"
      else if i = 0 ∨ rts.getD (i-1) 0 = 0 ∨ lastChar step.1 = some ' ' then
        step.1 ++ toString (scores.getD i 0)
      else step.1 ++ "," ++ toString (scores.getD i 0)
    codingGo weekday fmtMD dateDays rts scores dts is acc2 step.2

/-- `assign_coding_trail` (incdev.py:284-340): collect the run types, the
scores (`-1` sentinel for develop runs) and the timestamps, seed the week
marker with `vals['datetime'][0]` — the access that raises on an empty run
list, modelled with `List.get?` — and run the loop from the empty trail. -/
def assign_coding_trail (weekday : ℤ → Fin 7) (fmtMD : ℤ → String)
    (dateDays : ℤ → ℤ) (runs : List Run) : Option String :=
  let rts := runs.map (fun r => r.type)
  let scores := runs.map (fun r => if r.type = 0 then (-1 : ℤ) else r.score)
  let dts := runs.map (fun r => r.sub_time)
  match dts.get? 0 with
  | none => none
  | some wm0 =>
    some (codingGo weekday fmtMD dateDays rts scores dts
      (List.range runs.length) "" wm0)

/-- C9: at the failing input — three submissions whose middle snapshot has
no non-blank lines — `assign_loc_trail` fails with an index error
(modelled as `none`): the `drastic_change` list gets no entry for the run
after the blank snapshot (the guard `prev_code != ''` at incdev.py:182
skips the append), so it ends up shorter than the line-count list and the
rendering loop's read of `drastic_change[2]` is out of bounds. -/
theorem loc_trail_interior_blank_crash :
    assign_loc_trail (fun _ _ => 0)
      ([⟨1, ["x = 1"], 0, 0⟩, ⟨1, [""], 60, 0⟩, ⟨1, ["x = 2"], 120, 0⟩] : List Run) =
      none := by
  with_unfolding_all decide

/-- Counterexample to C2 as stated: on the empty run sequence both
`assign_loc_trail` (at `lines[0]`, incdev.py:211) and
`assign_coding_trail` (at `vals['datetime'][0]`, incdev.py:320) raise an
`IndexError` (modelled as `none`) instead of returning an empty trail. -/
theorem empty_sequence_counterexample :
    assign_loc_trail (fun _ _ => 0) ([] : List Run) = none ∧
      assign_coding_trail (fun _ => (0 : Fin 7)) (fun _ => "") (fun _ => 0)
        ([] : List Run) = none := by
  with_unfolding_all decide

/-- C2 (amended): on the empty run sequence the score functions and the
time and drastic-change trails return neutral defaults (score 1, empty
strings), but `assign_loc_trail` and `assign_coding_trail` fail with an
index error rather than returning an empty trail. -/
theorem empty_sequence_behaviour
    (d : List String → List String → ℕ) (weekday : ℤ → Fin 7)
    (fmtMD : ℤ → String) (dateDays : ℤ → ℤ) :
    assign_inc_dev_score ([] : List Run) = 1 ∧
      assign_inc_dev_score_trail d ([] : List Run) = "" ∧
      assign_time_trail ([] : List Run) = "" ∧
      assign_drastic_change_trail d ([] : List Run) = "" ∧
      assign_loc_trail d ([] : List Run) = none ∧
      assign_coding_trail weekday fmtMD dateDays ([] : List Run) = none := by
  refine ⟨by with_unfolding_all decide, rfl, rfl, rfl, rfl, rfl⟩

/-- Every maximal run of consecutive 0 tags lying strictly below position
`m` and bounded on the right by a nonzero tag has between 3 and 10
elements. -/
def GoodP (l : List ℕ) (m : ℕ) : Prop :=
  ∀ a b, a ≤ b → b < m →
    (∀ k, a ≤ k → k ≤ b → l.getD k 0 = 0) →
    (a = 0 ∨ l.getD (a-1) 0 ≠ 0) →
    l.getD (b+1) 0 ≠ 0 →
    3 ≤ b + 1 - a ∧ b + 1 - a ≤ 10

theorem getD_pos_lt_length {l : List ℕ} {m : ℕ} (h : 0 < l.getD m 0) :
    m < l.length := by
  by_contra hc
  rw [List.getD_eq_default l 0 (le_of_not_lt hc)] at h
  omega

theorem getD_pos_of_set {l : List ℕ} {m : ℕ} (j : ℕ) (h : 0 < l.getD m 0) :
    0 < (l.set j 1).getD m 0 := by
  by_cases hjm : j = m
  · subst hjm
    rw [getD_set_self_one l j (getD_pos_lt_length h)]
    omega
  · rw [getD_set_other l j m hjm]
    exact h

theorem setOnesN_getD : ∀ (n : ℕ) (l : List ℕ) (a k : ℕ),
    (setOnesN l a n).getD k 0 =
      if a ≤ k ∧ k < a + n ∧ k < l.length then 1 else l.getD k 0 := by
  intro n
  induction n with
  | zero =>
    intro l a k
    rw [setOnesN, if_neg (by omega)]
  | succ n ih =>
    intro l a k
    rw [setOnesN, ih, List.length_set]
    by_cases hk : k = a
    · subst hk
      rw [if_neg (by omega)]
      by_cases hl : k < l.length
      · rw [if_pos ⟨le_rfl, by omega, hl⟩, getD_set_self_one l k hl]
      · rw [if_neg (by omega)]
        rw [List.getD_eq_default _ 0 (by rw [List.length_set]; omega),
          List.getD_eq_default l 0 (by omega)]
    · rw [getD_set_other l a k (Ne.symm hk)]
      by_cases hc : a ≤ k ∧ k < a + (n + 1) ∧ k < l.length
      · rw [if_pos (by omega), if_pos hc]
      · rw [if_neg (by omega), if_neg hc]

theorem setOnes_getD (l : List ℕ) (a b k : ℕ) :
    (setOnes l a b).getD k 0 =
      if a ≤ k ∧ k ≤ b ∧ k < l.length then 1 else l.getD k 0 := by
  rw [setOnes, setOnesN_getD]
  by_cases hc : a ≤ k ∧ k ≤ b ∧ k < l.length
  · rw [if_pos (by omega), if_pos hc]
  · rw [if_neg (by omega), if_neg hc]

theorem getD_pos_of_setOnes {l : List ℕ} {m : ℕ} (a b : ℕ)
    (h : 0 < l.getD m 0) : 0 < (setOnes l a b).getD m 0 := by
  rw [setOnes_getD]
  split
  · omega
  · exact h

/-- Inside a window of zeros `[st, i)` bounded on the left by a nonzero
tag, the only candidate maximal zero run whose right end lies in the window
is the whole window. -/
theorem run_ident (l : List ℕ) (st i a b : ℕ)
    (hst1 : 1 ≤ st) (_hsti : st < i)
    (hleft : l.getD (st-1) 0 ≠ 0)
    (hwin : ∀ j, st ≤ j → j < i → l.getD j 0 = 0)
    (hab : a ≤ b) (hbz : ∀ k, a ≤ k → k ≤ b → l.getD k 0 = 0)
    (hbst : st ≤ b) (hbi : b < i)
    (hA : a = 0 ∨ l.getD (a-1) 0 ≠ 0) (hB : l.getD (b+1) 0 ≠ 0) :
    a = st ∧ b = i - 1 := by
  have hbi1 : b = i - 1 := by
    by_contra hc
    exact hB (hwin (b+1) (by omega) (by omega))
  have hale : a ≤ st := by
    by_contra hc
    rcases hA with h0 | hA
    · omega
    · exact hA (hwin (a-1) (by omega) (by omega))
  have hage : st ≤ a := by
    by_contra hc
    exact hleft (hbz (st-1) (by omega) (by omega))
  exact ⟨by omega, hbi1⟩

theorem GoodP_init (l : List ℕ) (hh : l.getD 0 0 ≠ 0) : GoodP l 1 := by
  intro a b hab hb hz _ _
  exfalso
  have ha0 : a = 0 := by omega
  have hb0 : b = 0 := by omega
  exact hh (hz 0 (by omega) (by omega))

theorem GoodP_succ_pos {l : List ℕ} {i : ℕ} (hG : GoodP l i)
    (hx : l.getD i 0 ≠ 0) : GoodP l (i+1) := by
  intro a b hab hb hz hA hB
  by_cases hbi : b = i
  · exact absurd (hz i (by omega) (by omega)) hx
  · exact hG a b hab (by omega) hz hA hB

/-- Transfer of `GoodP` through a list change that leaves everything below
`st` intact and keeps the tag at `st - 1` nonzero: candidate runs ending
below `st` keep their bounds. -/
theorem GoodP_transfer_low (l l' : List ℕ) (st : ℕ)
    (hst1 : 1 ≤ st)
    (hagree : ∀ k, k < st → l'.getD k 0 = l.getD k 0)
    (hG : GoodP l st)
    (hleft : l'.getD (st-1) 0 ≠ 0) :
    ∀ a b, a ≤ b → b < st →
      (∀ k, a ≤ k → k ≤ b → l'.getD k 0 = 0) →
      (a = 0 ∨ l'.getD (a-1) 0 ≠ 0) →
      l'.getD (b+1) 0 ≠ 0 →
      3 ≤ b + 1 - a ∧ b + 1 - a ≤ 10 := by
  intro a b hab hb hz hA hB
  by_cases hbst : b = st - 1
  · exfalso
    exact hleft (hz (st-1) (by omega) (by omega))
  · have hble : b + 1 < st := by omega
    refine hG a b hab (by omega) ?_ ?_ ?_
    · intro k hk1 hk2
      rw [← hagree k (by omega)]
      exact hz k hk1 hk2
    · rcases hA with h0 | hA
      · exact Or.inl h0
      · exact Or.inr (by rw [← hagree (a-1) (by omega)]; exact hA)
    · rw [← hagree (b+1) (by omega)]
      exact hB

/-- Closing an active zero run `[st, i)` of admissible length with a
nonzero tag at `i` preserves the run bounds up to `i + 1`. -/
theorem GoodP_close_zero (l l' : List ℕ) (st i : ℕ)
    (hst1 : 1 ≤ st) (hsti : st < i)
    (hagree : ∀ k, k < st → l'.getD k 0 = l.getD k 0)
    (hG : GoodP l st)
    (hleft : l'.getD (st-1) 0 ≠ 0)
    (hwin : ∀ k, st ≤ k → k < i → l'.getD k 0 = 0)
    (hlen3 : 3 ≤ i - st) (hlen10 : i - st ≤ 10)
    (hi : l'.getD i 0 ≠ 0) :
    GoodP l' (i+1) := by
  intro a b hab hb hz hA hB
  by_cases hbst : st ≤ b
  · have hbi : b ≠ i := by
      intro hc
      exact hi (hz i (by omega) (by omega))
    obtain ⟨ha, hbv⟩ := run_ident l' st i a b hst1 hsti hleft hwin hab hz hbst
      (by omega) hA hB
    omega
  · exact GoodP_transfer_low l l' st hst1 hagree hG hleft a b hab (by omega) hz hA hB

/-- Promoting the whole active run `[st, i)` to nonzero tags (with a
nonzero tag at `i`) preserves the run bounds up to `i + 1`: no candidate
run can end at or above `st` any more. -/
theorem GoodP_close_pos (l l' : List ℕ) (st i : ℕ)
    (hst1 : 1 ≤ st) (_hsti : st < i)
    (hagree : ∀ k, k < st → l'.getD k 0 = l.getD k 0)
    (hG : GoodP l st)
    (hleft : l'.getD (st-1) 0 ≠ 0)
    (hwin : ∀ k, st ≤ k → k < i → l'.getD k 0 ≠ 0)
    (hi : l'.getD i 0 ≠ 0) :
    GoodP l' (i+1) := by
  intro a b hab hb hz hA hB
  by_cases hbst : st ≤ b
  · exfalso
    have hbz : l'.getD b 0 = 0 := hz b (by omega) (by omega)
    by_cases hbi : b = i
    · exact hi (hbi ▸ hbz)
    · exact hwin b hbst (by omega) hbz
  · exact GoodP_transfer_low l l' st hst1 hagree hG hleft a b hab (by omega) hz hA hB

theorem cslStep_none_start (l : List ℕ) (i : ℕ)
    (hx : l.getD i 0 = 0) (hb : 0 < l.getD (i-1) 0) :
    cslStep l none none i = (l, some i, none) := by
  simp only [cslStep]
  rw [if_pos ⟨hx, hb⟩]
  simp [cslCheck, truthy]

theorem cslStep_none_pos (l : List ℕ) (i : ℕ)
    (hx : l.getD i 0 ≠ 0) (hb : 0 < l.getD (i-1) 0) :
    cslStep l none none i = (l, none, none) := by
  simp only [cslStep]
  rw [if_neg (by omega), if_neg (by omega), if_neg (by simp [truthy])]
  simp [cslCheck, truthy]

theorem cslStep_some_cut (l : List ℕ) (st i : ℕ)
    (hx : l.getD i 0 = 0) (hb : l.getD (i-1) 0 = 0)
    (hst0 : st ≠ 0) (h10 : (i : ℤ) - (st : ℤ) = 10) :
    cslStep l (some st) none i = (l.set i 1, none, none) := by
  simp only [cslStep]
  rw [if_neg (by omega), if_neg (by omega),
    if_pos ⟨by simp [truthy, hst0], by simpa using h10⟩]
  simp [cslCheck, truthy]

theorem cslStep_some_skip (l : List ℕ) (st i : ℕ)
    (hx : l.getD i 0 = 0) (hb : l.getD (i-1) 0 = 0)
    (h10 : ¬ ((i : ℤ) - (st : ℤ) = 10)) :
    cslStep l (some st) none i = (l, some st, none) := by
  simp only [cslStep]
  rw [if_neg (by omega), if_neg (by omega), if_neg (by simpa [truthy] using fun _ => h10)]
  simp [cslCheck, truthy]

theorem cslStep_some_end_short (l : List ℕ) (st i : ℕ)
    (hst0 : st ≠ 0) (hi1 : i - 1 ≠ 0)
    (hx : l.getD i 0 ≠ 0) (hb : l.getD (i-1) 0 = 0)
    (hshort : ((i-1 : ℕ) : ℤ) - (st : ℤ) < 2) :
    cslStep l (some st) none i = (setOnes l st (i-1), none, none) := by
  simp only [cslStep]
  rw [if_neg (by omega), if_pos ⟨by omega, hb⟩]
  simp only [cslCheck]
  rw [if_pos ⟨by simp [truthy, hst0], by simp [truthy, hi1]⟩]
  simp only [Option.getD_some]
  rw [if_pos (by simpa using hshort)]

theorem cslStep_some_end_long (l : List ℕ) (st i : ℕ)
    (hst0 : st ≠ 0) (hi1 : i - 1 ≠ 0)
    (hx : l.getD i 0 ≠ 0) (hb : l.getD (i-1) 0 = 0)
    (hlong : ¬ (((i-1 : ℕ) : ℤ) - (st : ℤ) < 2)) :
    cslStep l (some st) none i = (l, none, none) := by
  simp only [cslStep]
  rw [if_neg (by omega), if_pos ⟨by omega, hb⟩]
  simp only [cslCheck]
  rw [if_pos ⟨by simp [truthy, hst0], by simp [truthy, hi1]⟩]
  simp only [Option.getD_some]
  rw [if_neg (by simpa using hlong)]

/-- Main invariant of the `check_subsequence_length` loop: running from
position `i` to the end of the list with no pending end marker, a positive
first and last tag, and either no open sub-run (everything before `i`
already satisfies the run bounds and the tag at `i - 1` is positive) or an
open sub-run of zeros `[st, i)` of at most 10 elements, the final list
satisfies the run bounds everywhere. -/
theorem cslGo_good : ∀ (k : ℕ) (l : List ℕ) (s : Option ℕ) (i : ℕ),
    i + k = l.length → 1 ≤ i →
    0 < l.getD 0 0 → 0 < l.getD (l.length - 1) 0 →
    ((s = none ∧ GoodP l i ∧ 0 < l.getD (i-1) 0) ∨
      (∃ st, s = some st ∧ GoodP l st ∧ 1 ≤ st ∧ st < i ∧ i ≤ st + 10 ∧
        0 < l.getD (st-1) 0 ∧ ∀ j, st ≤ j → j < i → l.getD j 0 = 0)) →
    GoodP (cslGo l s none (List.range' i k)) l.length := by
  intro k
  induction k with
  | zero =>
    intro l s i hik h1 hh hl hinv
    rcases hinv with ⟨hs, hG, _⟩ | ⟨st, hs, _, hst1, hsti, _, _, hz⟩
    · subst hs
      show GoodP l l.length
      have hi : i = l.length := by omega
      rw [← hi]
      exact hG
    · exfalso
      have hz2 := hz (l.length - 1) (by omega) (by omega)
      omega
  | succ k ih =>
    intro l s i hik h1 hh hl hinv
    have hilt : i < l.length := by omega
    have hcons : List.range' i (k+1) = i :: List.range' (i+1) k := rfl
    rw [hcons]
    rcases hinv with ⟨hs, hG, hb⟩ | ⟨st, hs, hG, hst1, hsti, hst10, hleft, hz⟩
    · subst hs
      by_cases hx : l.getD i 0 = 0
      · rw [cslGo_cons, cslStep_none_start l i hx hb]
        exact ih l (some i) (i+1) (by omega) (by omega) hh hl
          (Or.inr ⟨i, rfl, hG, by omega, by omega, by omega, hb, by
            intro j hj1 hj2
            have hji : j = i := by omega
            rw [hji]; exact hx⟩)
      · rw [cslGo_cons, cslStep_none_pos l i hx hb]
        refine ih l none (i+1) (by omega) (by omega) hh hl
          (Or.inl ⟨rfl, GoodP_succ_pos hG hx, ?_⟩)
        have hidx : i + 1 - 1 = i := by omega
        rw [hidx]
        omega
    · subst hs
      have hb0 : l.getD (i-1) 0 = 0 := hz (i-1) (by omega) (by omega)
      by_cases hx : l.getD i 0 = 0
      · by_cases h10 : (i : ℤ) - (st : ℤ) = 10
        · rw [cslGo_cons, cslStep_some_cut l st i hx hb0 (by omega) h10]
          have hlen' : (l.set i 1).length = l.length := List.length_set l i 1
          have hres := ih (l.set i 1) none (i+1) (by rw [hlen']; omega) (by omega)
            (getD_pos_of_set i hh)
            (by rw [hlen']; exact getD_pos_of_set i hl)
            (Or.inl ⟨rfl, ?_, ?_⟩)
          · rwa [hlen'] at hres
          · -- GoodP (l.set i 1) (i+1): close the 10-element run
            refine GoodP_close_zero l (l.set i 1) st i hst1 hsti ?_ hG ?_ ?_
              (by omega) (by omega) ?_
            · intro m hm
              exact getD_set_other l i m (by omega)
            · rw [getD_set_other l i (st-1) (by omega)]
              omega
            · intro m hm1 hm2
              rw [getD_set_other l i m (by omega)]
              exact hz m hm1 hm2
            · rw [getD_set_self_one l i hilt]
              omega
          · have hidx : i + 1 - 1 = i := by omega
            rw [hidx, getD_set_self_one l i hilt]
            omega
        · rw [cslGo_cons, cslStep_some_skip l st i hx hb0 h10]
          refine ih l (some st) (i+1) (by omega) (by omega) hh hl
            (Or.inr ⟨st, rfl, hG, hst1, by omega, ?_, hleft, ?_⟩)
          · -- i + 1 ≤ st + 10 from i ≤ st + 10 and i - st ≠ 10
            omega
          · intro j hj1 hj2
            by_cases hji : j = i
            · rw [hji]; exact hx
            · exact hz j hj1 (by omega)
      · have hi2 : 2 ≤ i := by omega
        by_cases hshort : ((i-1 : ℕ) : ℤ) - (st : ℤ) < 2
        · rw [cslGo_cons,
            cslStep_some_end_short l st i (by omega) (by omega) hx hb0 hshort]
          have hlen' : (setOnes l st (i-1)).length = l.length :=
            (Mod1_setOnes l st (i-1)).1
          have hres := ih (setOnes l st (i-1)) none (i+1) (by rw [hlen']; omega)
            (by omega)
            (getD_pos_of_setOnes st (i-1) hh)
            (by rw [hlen']; exact getD_pos_of_setOnes st (i-1) hl)
            (Or.inl ⟨rfl, ?_, ?_⟩)
          · rwa [hlen'] at hres
          · -- GoodP (setOnes l st (i-1)) (i+1): the run was promoted to ones
            refine GoodP_close_pos l (setOnes l st (i-1)) st i hst1 hsti ?_ hG ?_ ?_ ?_
            · intro m hm
              rw [setOnes_getD, if_neg (by omega)]
            · rw [setOnes_getD, if_neg (by omega)]
              omega
            · intro m hm1 hm2
              rw [setOnes_getD, if_pos ⟨hm1, by omega, by omega⟩]
              omega
            · rw [setOnes_getD, if_neg (by omega)]
              exact hx
          · have hidx : i + 1 - 1 = i := by omega
            rw [hidx, setOnes_getD, if_neg (by omega)]
            omega
        · rw [cslGo_cons,
            cslStep_some_end_long l st i (by omega) (by omega) hx hb0 hshort]
          refine ih l none (i+1) (by omega) (by omega) hh hl
            (Or.inl ⟨rfl, ?_, ?_⟩)
          · refine GoodP_close_zero l l st i hst1 hsti (fun _ _ => rfl) hG ?_ hz
              (by omega) (by omega) hx
            omega
          · have hidx : i + 1 - 1 = i := by omega
            rw [hidx]
            omega

theorem prelimGo_success_props (lines dc : List ℕ) :
    ∀ (is rl out : List ℕ),
      prelimGo lines dc rl is = some out →
      rl ≠ [] → rl.getD 0 0 = 1 →
      out ≠ [] ∧ out.getD 0 0 = 1 ∧ out.getD (out.length - 1) 0 = 1 := by
  intro is
  induction is with
  | nil =>
    intro rl out h hne h0
    rw [prelimGo] at h
    have hout : out = rl ++ [1] := by
      injection h with h
      exact h.symm
    subst hout
    refine ⟨by simp, ?_, ?_⟩
    · rw [List.getD_append _ _ _ 0 (List.length_pos.mpr hne)]
      exact h0
    · have hlen : (rl ++ [1]).length - 1 = rl.length := by simp
      rw [hlen, List.getD_eq_getElem _ _ (by simp)]
      exact List.getElem_concat_length rl 1 rl.length rfl _
  | cons i is ih =>
    intro rl out h hne h0
    rw [prelimGo] at h
    have hslne : setLastOne rl ≠ [] := by
      intro hc
      have := congrArg List.length hc
      rw [setLastOne_length] at this
      exact hne (List.length_eq_zero.mp this)
    have hgen : ∀ v : ℕ, (setLastOne rl ++ [v]).getD 0 0 = 1 := by
      intro v
      rw [List.getD_append _ _ _ 0 (List.length_pos.mpr hslne)]
      exact setLastOne_getD_zero rl h0
    have hrl0 : (rl ++ [0]).getD 0 0 = 1 := by
      rw [List.getD_append _ _ _ 0 (List.length_pos.mpr hne)]
      exact h0
    by_cases hA : 20 < (lines.getD i 0 : ℤ) - (lines.getD (i-1) 0 : ℤ)
    · rw [if_pos hA] at h
      exact ih _ _ h (by simp) (hgen 2)
    · rw [if_neg hA] at h
      by_cases hB : 10 < |(lines.getD i 0 : ℤ) - (lines.getD (i-1) 0 : ℤ)|
      · rw [if_pos hB] at h
        exact ih _ _ h (by simp) (hgen 1)
      · rw [if_neg hB] at h
        cases hdc : dc.get? i with
        | none =>
          rw [hdc] at h
          simp at h
        | some dci =>
          rw [hdc] at h
          dsimp only at h
          by_cases hC : dci = 1
          · rw [if_pos hC] at h
            exact ih _ _ h (by simp) (hgen 1)
          · rw [if_neg hC] at h
            exact ih _ _ h (by simp) hrl0

/-- C3 (amended): whenever the relevance classification succeeds, every
maximal run of consecutive 0 tags in its output — a stretch of 0 tags
bounded on each side by the list edge or a nonzero tag — has at least 3
and at most 10 elements (a sub-run reaching 11 omitted elements has its
11th element promoted, so runs of exactly 10 omissions survive). -/
theorem loc_zero_runs_bounded (lines dc rl : List ℕ)
    (h : relevanceClassify lines dc = some rl) :
    ∀ a b, a ≤ b → b < rl.length →
      (∀ k, a ≤ k → k ≤ b → rl.getD k 0 = 0) →
      (a = 0 ∨ rl.getD (a-1) 0 ≠ 0) →
      (b = rl.length - 1 ∨ rl.getD (b+1) 0 ≠ 0) →
      3 ≤ b + 1 - a ∧ b + 1 - a ≤ 10 := by
  unfold relevanceClassify at h
  cases hp : prelimGo lines dc [1] (List.range' 1 (lines.length - 2)) with
  | none =>
    rw [hp] at h
    simp at h
  | some out =>
    rw [hp, Option.map_some'] at h
    have hrl : rl = check_subsequence_length (check_subsequence_values out lines) :=
      ((Option.some.injEq _ _).mp h).symm
    obtain ⟨hone, hout0, houtl⟩ :=
      prelimGo_success_props lines dc _ _ _ hp (by simp) rfl
    have hMv : Mod1 out (check_subsequence_values out lines) :=
      Mod1_csvGo lines _ out none none
    set v := check_subsequence_values out lines with hv
    have hv0 : 0 < v.getD 0 0 := by
      rcases hMv.2 0 with h2 | h2 <;> rw [h2] <;> omega
    have hvl : 0 < v.getD (v.length - 1) 0 := by
      rw [hMv.1]
      rcases hMv.2 (out.length - 1) with h2 | h2 <;> rw [h2] <;> omega
    have hvlen1 : 1 ≤ v.length := by
      rw [hMv.1]
      exact List.length_pos.mpr hone
    have hG := cslGo_good (v.length - 1) v none 1 (by omega) le_rfl hv0 hvl
      (Or.inl ⟨rfl, GoodP_init v (by omega), by simpa using hv0⟩)
    have hGrl : GoodP rl v.length := by
      rw [hrl]
      exact hG
    have hMr : Mod1 v rl := by
      rw [hrl]
      exact Mod1_cslGo _ _ none none
    intro a b hab hb hz hA hB
    have hrlen : rl.length = v.length := hMr.1
    have hrlast : 0 < rl.getD (rl.length - 1) 0 := by
      rcases hMr.2 (rl.length - 1) with h2 | h2
      · rw [h2, hrlen]
        exact hvl
      · rw [h2]
        omega
    have hB' : rl.getD (b+1) 0 ≠ 0 := by
      rcases hB with hB | hB
      · exfalso
        have hzb := hz b (by omega) (by omega)
        rw [hB] at hzb
        omega
      · exact hB
    exact hGrl a b hab (by omega) hz hA hB'

/-- Counterexample to C3 as stated: twelve runs with equal line counts and
no drastic changes classify to a trail whose interior is a maximal run of
10 consecutive 0 tags — more than the 9 the claim allows — because the
`i - start_loc == 10` cut (incdev.py:431-433) promotes the 11th element of
an omitted sub-run, not the 10th. -/
theorem loc_zero_run_of_ten_counterexample :
    relevanceClassify (List.replicate 12 10) (List.replicate 12 0) =
        some [1, 0, 0, 0, 0, 0, 0, 0, 0, 0, 0, 1] ∧
      ((List.range' 1 10).all
        (fun k => ([1, 0, 0, 0, 0, 0, 0, 0, 0, 0, 0, 1] : List ℕ).getD k 0 == 0)) = true ∧
      ([1, 0, 0, 0, 0, 0, 0, 0, 0, 0, 0, 1] : List ℕ).getD 0 0 ≠ 0 ∧
      ([1, 0, 0, 0, 0, 0, 0, 0, 0, 0, 0, 1] : List ℕ).getD 11 0 ≠ 0 := by
  decide

/-- Witness for C3 (amended): a concrete successful classification with an
interior zero run of exactly 3, within the bounds. -/
theorem loc_zero_runs_bounded_witness :
    relevanceClassify [1, 1, 1, 1, 1] [0, 0, 0, 0, 0] = some [1, 0, 0, 0, 1] ∧
      (3 ≤ 3 + 1 - 1 ∧ 3 + 1 - 1 ≤ 10) :=
  ⟨by decide,
    loc_zero_runs_bounded [1, 1, 1, 1, 1] [0, 0, 0, 0, 0] [1, 0, 0, 0, 1]
      (by decide) 1 3 (by decide) (by decide)
      (by intro k h1 h2; interval_cases k <;> rfl)
      (by decide) (by decide)⟩
